import Mathlib

set_option allowUnsafeReducibility true in
attribute [semireducible] Rat.add Rat.sub Rat.mul Rat.div Rat.inv

/-!
Verification of the `fastbinning` Go library (non-uniform binning with
average-constant-time search, after Cadenas and Megson).

The embedding below is a shallow translation of `fastbinning.go`.  Go `float64`
values are modeled as exact rationals `ℚ`; Go `int` counters and indices are
modeled as `ℕ` (they are never negative in this code), except the indices
printed in the validation error, which the code computes as `i-1` and can be
negative, so they are `ℤ`.  Go run-time panics (index out of range, slice
bounds out of range, the explicit `panic` in `Search`) are modeled as `none` /
`NewResult.panics`.
-/

namespace Fastbinning

/-- The `Bin` struct of `fastbinning.go`: the boundary sequence together with
the precalculated uniform bin width, histogram and cumulative histogram. -/
structure Bin where
  boundaries : List ℚ
  uniformBinWidth : ℚ
  histogram : List ℕ
  cumulativeHistogram : List ℕ
deriving DecidableEq

/-- Result of `New`: a prepared `Bin`, or the validation error (carrying the two
offending values and the two indices that the Go error message prints), or a
run-time panic. -/
inductive NewResult where
  | ok (bin : Bin)
  | validationError (v1 v2 : ℚ) (i1 i2 : ℤ)
  | panics
deriving DecidableEq

/-- The inner loop of `precalculation`:
`for b > lowestBound+bin.uniformBinWidth { lowestBound += bin.uniformBinWidth; uniformBinNumber += 1 }`.
The Go loop terminates because the width is positive; `fuel` bounds the number
of iterations (callers pass a bound that is proved sufficient). -/
def whileAdvance (w : ℚ) : ℕ → ℚ → ℕ → ℚ → ℚ × ℕ
  | 0, lowest, c, _ => (lowest, c)
  | fuel + 1, lowest, c, b =>
    if lowest + w < b then whileAdvance w fuel (lowest + w) (c + 1) b else (lowest, c)

/-- The mutable state of the histogram sweep in `precalculation`. -/
structure SweepState where
  lowestBound : ℚ
  uniformBinNumber : ℕ
  histogram : List ℕ
deriving DecidableEq

/-- One iteration of the `for _, b := range bin.boundaries[1:m]` loop of
`precalculation`: advance the uniform-cell pointer past `b`, then
`bin.histogram[uniformBinNumber-1] += 1`.  `none` models the index-out-of-range
panic on that write. -/
def sweepStep (w : ℚ) (fuel : ℕ) (s : SweepState) (b : ℚ) : Option SweepState :=
  let p := whileAdvance w fuel s.lowestBound s.uniformBinNumber b
  match s.histogram[p.2 - 1]? with
  | none => none
  | some cnt => some ⟨p.1, p.2, s.histogram.set (p.2 - 1) (cnt + 1)⟩

/-- Step 3 of `precalculation`: `cumulativeHistogram[0] = 1` (here `acc = 1`)
and `cumulativeHistogram[i+1] = cumulativeHistogram[i] + histogram[i]`. -/
def cumulativeFrom (acc : ℕ) : List ℕ → List ℕ
  | [] => [acc]
  | h :: t => acc :: cumulativeFrom (acc + h) t

/-- The `precalculation` method.  `none` models a run-time panic: for fewer than
two boundaries the Go code panics (`boundaries[m]` with `m = -1`, or the slice
expression `boundaries[1:0]`), and the sweep write can panic out of range. -/
def precalculation (boundaries : List ℚ) : Option Bin :=
  if boundaries.length < 2 then none
  else
    let m := boundaries.length - 1
    let totalWidth := boundaries.getD m 0 - boundaries.getD 0 0
    let w := totalWidth / (m : ℚ)
    let interior := (boundaries.drop 1).take (m - 1)
    match interior.foldlM (sweepStep w (m + 1)) ⟨boundaries.getD 0 0, 1, List.replicate m 0⟩ with
    | none => none
    | some s => some ⟨boundaries, w, s.histogram, cumulativeFrom 1 s.histogram⟩

/-- The validation loop of `New`: the smallest index `i` (into the original
slice) with `boundaries[i] >= boundaries[i+1]`. -/
def violation : List ℚ → Option ℕ
  | a :: b :: t => if b ≤ a then some 0 else (violation (b :: t)).map (· + 1)
  | _ => none

/-- The `New` constructor: validate monotonicity, then run `precalculation`.
On a violation at slice index `i` the Go code returns the error
`"... Found %f >= %f at index %d and %d"` with arguments
`boundaries[i], boundaries[i+1], i-1, i`. -/
def New (boundaries : List ℚ) : NewResult :=
  match violation boundaries with
  | some i =>
      NewResult.validationError (boundaries.getD i 0) (boundaries.getD (i + 1) 0)
        ((i : ℤ) - 1) (i : ℤ)
  | none =>
      match precalculation boundaries with
      | some bin => NewResult.ok bin
      | none => NewResult.panics

/-- The `Boundary` method: `bin.boundaries[i]`, where an out-of-range index
makes Go panic with an index-out-of-range error (modeled as `none`). -/
def Boundary (bin : Bin) (i : ℤ) : Option ℚ :=
  if 0 ≤ i ∧ i < (bin.boundaries.length : ℤ) then some (bin.boundaries.getD i.toNat 0)
  else none

/-- Linear scan computing the documented result of Go's `sort.Search`:
the smallest `j` in `[i, i + fuel)` with `f j = true`, else `i + fuel`. -/
def sortSearchFrom (f : ℕ → Bool) : ℕ → ℕ → ℕ
  | i, 0 => i
  | i, fuel + 1 => if f i then i else sortSearchFrom f (i + 1) fuel

/-- Go's `sort.Search n f` per its documented contract: the smallest `i` in
`[0, n)` at which `f i` is true (for monotone `f`), or `n` if there is none. -/
def sortSearch (n : ℕ) (f : ℕ → Bool) : ℕ := sortSearchFrom f 0 n

/-- The `Search` method.  `none` models a panic: the explicit
`panic("Bin needs to be created with New")` when `uniformBinWidth <= 0`, or an
index out of range.  The Go conversion `int((value-b0)/w)` truncates toward
zero; at that point `value ≥ b0` and `w > 0`, so it is the floor. -/
def Search (bin : Bin) (value : ℚ) : Option ℕ :=
  if bin.uniformBinWidth ≤ 0 then none
  else
    match bin.boundaries[0]?, bin.boundaries[bin.boundaries.length - 1]? with
    | some b0, some blast =>
      if value < b0 then some 0
      else if blast ≤ value then some bin.boundaries.length
      else
        let u := (⌊(value - b0) / bin.uniformBinWidth⌋).toNat + 1
        match bin.histogram[u - 1]?, bin.cumulativeHistogram[u - 1]? with
        | some h, some r =>
          match h with
          | 0 => some r
          | 1 =>
            match bin.boundaries[r]? with
            | some br => if br ≤ value then some (r + 1) else some r
            | none => none
          | 2 =>
            match bin.boundaries[r + 1]?, bin.boundaries[r]? with
            | some br1, some br =>
                some (if br1 ≤ value then r + 2 else if value < br then r else r + 1)
            | _, _ => none
          | _ =>
            if r + h ≤ bin.boundaries.length then
              some (r + sortSearch h (fun i => decide (value < bin.boundaries.getD (r + i) 0)))
            else none
        | _, _ => none
    | _, _ => none

/-- Strict monotonicity of the boundary sequence, the validity condition of
`New`. -/
def StrictlyIncreasing (l : List ℚ) : Prop := l.Chain' (· < ·)

/-- Number of boundaries that are `≤ v`: the step function that `Search`
computes on a valid `Bin`. -/
def countLE (bs : List ℚ) (v : ℚ) : ℕ := bs.countP (fun b => decide (b ≤ v))

/-- The uniform cell that the sweep of `precalculation` assigns to a boundary
`b`: the smallest `c ≥ 1` with `b ≤ b0 + c·w` (cells are right-closed because
the sweep advances only while `b` strictly exceeds the cell's upper edge). -/
def cellOf (b0 w b : ℚ) : ℕ := max 1 (Int.toNat ⌈(b - b0) / w⌉)

/-- The interior boundaries `boundaries[1:m]` that the sweep processes. -/
def interiorOf (bs : List ℚ) : List ℚ := (bs.drop 1).take (bs.length - 1 - 1)

/-- The width `(boundaries[m] - boundaries[0]) / m` of the uniform cells. -/
def wOf (bs : List ℚ) : ℚ :=
  (bs.getD (bs.length - 1) 0 - bs.getD 0 0) / ((bs.length - 1 : ℕ) : ℚ)

/-- Number of interior boundaries that the sweep counts into uniform cell
`i + 1` (0-indexed histogram slot `i`). -/
def cellCount (bs : List ℚ) (i : ℕ) : ℕ :=
  (interiorOf bs).countP (fun b => decide (cellOf (bs.getD 0 0) (wOf bs) b = i + 1))

/-- The boundary sequence of the end-to-end reference example. -/
def exBoundaries : List ℚ := [2, 11, 19, 20, 21, 27, 29, 30]

/-- The fully precalculated `Bin` for `exBoundaries`. -/
def exBin : Bin :=
  ⟨exBoundaries, 4, [0, 0, 1, 0, 3, 0, 2], [1, 1, 1, 2, 2, 5, 5, 7]⟩

theorem one_le_cellOf (b0 w b : ℚ) : 1 ≤ cellOf b0 w b := le_max_left _ _

theorem cellOf_le_iff {b0 w b : ℚ} (hw : 0 < w) (hb : b0 < b) (c : ℕ) :
    cellOf b0 w b ≤ c ↔ b ≤ b0 + (c : ℚ) * w := by
  have hpos : (0 : ℚ) < (b - b0) / w := div_pos (by linarith) hw
  have hceil : 0 < ⌈(b - b0) / w⌉ := Int.lt_ceil.mpr (by push_cast; linarith)
  have hmax : cellOf b0 w b = (⌈(b - b0) / w⌉).toNat := by
    unfold cellOf; omega
  rw [hmax, Int.toNat_le, Int.ceil_le, div_le_iff₀ hw]
  push_cast
  constructor <;> intro h <;> linarith

theorem cellOf_mono {b0 w : ℚ} (hw : 0 < w) {b b' : ℚ} (hbb : b ≤ b') :
    cellOf b0 w b ≤ cellOf b0 w b' := by
  have h1 : (b - b0) / w ≤ (b' - b0) / w := by
    gcongr
  have h2 : ⌈(b - b0) / w⌉ ≤ ⌈(b' - b0) / w⌉ := Int.ceil_le_ceil h1
  unfold cellOf
  omega

theorem whileAdvance_eq {w : ℚ} (hw : 0 < w) {b0 b : ℚ} (hb : b0 < b) :
    ∀ (fuel d e : ℕ), cellOf b0 w b = e + 1 → d ≤ e → e ≤ d + fuel →
      whileAdvance w fuel (b0 + (d : ℚ) * w) (d + 1) b = (b0 + (e : ℚ) * w, e + 1) := by
  intro fuel
  induction fuel with
  | zero =>
    intro d e hcell hde hed
    have hde' : d = e := by omega
    subst hde'
    simp [whileAdvance]
  | succ n ih =>
    intro d e hcell hde hed
    simp only [whileAdvance]
    by_cases hlt : b0 + (d : ℚ) * w + w < b
    · have hgt : ¬ cellOf b0 w b ≤ d + 1 := by
        rw [cellOf_le_iff hw hb]
        push_neg
        push_cast
        linarith
      have hde1 : d + 1 ≤ e := by omega
      rw [if_pos hlt]
      have harith : b0 + (d : ℚ) * w + w = b0 + ((d + 1 : ℕ) : ℚ) * w := by
        push_cast; ring
      rw [harith]
      exact ih (d + 1) e hcell hde1 (by omega)
    · have hle : cellOf b0 w b ≤ d + 1 := by
        rw [cellOf_le_iff hw hb]
        push_cast
        linarith [not_lt.mp hlt]
      have hde' : d = e := by omega
      subst hde'
      rw [if_neg hlt]

theorem sweep_spec {w b0 : ℚ} (hw : 0 < w) (m : ℕ) :
    ∀ (L : List ℚ) (d : ℕ) (hist : List ℕ),
      hist.length = m →
      L.Pairwise (· ≤ ·) →
      (∀ b ∈ L, b0 < b ∧ d + 1 ≤ cellOf b0 w b ∧ cellOf b0 w b ≤ m) →
      ∃ s' : SweepState,
        L.foldlM (sweepStep w (m + 1)) ⟨b0 + (d : ℚ) * w, d + 1, hist⟩ = some s' ∧
        s'.histogram.length = m ∧
        ∀ i : ℕ, s'.histogram.getD i 0 =
          hist.getD i 0 + L.countP (fun b => decide (cellOf b0 w b = i + 1)) := by
  intro L
  induction L with
  | nil =>
    intro d hist hlen _ _
    exact ⟨⟨b0 + (d : ℚ) * w, d + 1, hist⟩, by simp [List.foldlM_nil], hlen, by simp⟩
  | cons b L ih =>
    intro d hist hlen hpw hmem
    obtain ⟨hb0, hd1, hm⟩ := hmem b (List.mem_cons_self b L)
    obtain ⟨e, he⟩ : ∃ e, cellOf b0 w b = e + 1 :=
      ⟨cellOf b0 w b - 1, by have := one_le_cellOf b0 w b; omega⟩
    have hde : d ≤ e := by omega
    have hwa := whileAdvance_eq hw hb0 (m + 1) d e he hde (by omega)
    have helen : e < hist.length := by omega
    have hstep : sweepStep w (m + 1) ⟨b0 + (d : ℚ) * w, d + 1, hist⟩ b =
        some ⟨b0 + (e : ℚ) * w, e + 1, hist.set e (hist[e] + 1)⟩ := by
      unfold sweepStep
      simp only [hwa]
      simp [List.getElem?_eq_getElem helen]
    obtain ⟨hall, htail⟩ := List.pairwise_cons.mp hpw
    have hmem2 : ∀ b' ∈ L, b0 < b' ∧ e + 1 ≤ cellOf b0 w b' ∧ cellOf b0 w b' ≤ m := by
      intro b' hb'
      refine ⟨lt_of_lt_of_le hb0 (hall b' hb'), ?_, (hmem b' (List.mem_cons_of_mem b hb')).2.2⟩
      have := @cellOf_mono b0 w hw b b' (hall b' hb')
      omega
    obtain ⟨s', hfold, hslen, hcnt⟩ :=
      ih e (hist.set e (hist[e] + 1)) (by simp [hlen]) htail hmem2
    refine ⟨s', ?_, hslen, ?_⟩
    · rw [List.foldlM_cons, hstep]
      simpa using hfold
    · intro i
      have hset : (hist.set e (hist[e] + 1)).getD i 0 =
          hist.getD i 0 + (if cellOf b0 w b = i + 1 then 1 else 0) := by
        by_cases hie : i = e
        · subst hie
          rw [List.getD_eq_getElem?_getD, List.getD_eq_getElem?_getD,
            List.getElem?_eq_getElem (by simpa using helen),
            List.getElem?_eq_getElem helen]
          simp [List.getElem_set, he]
        · by_cases hilen : i < hist.length
          · rw [List.getD_eq_getElem?_getD, List.getD_eq_getElem?_getD,
              List.getElem?_eq_getElem (by simpa using hilen),
              List.getElem?_eq_getElem hilen]
            have : ¬ cellOf b0 w b = i + 1 := by omega
            simp [List.getElem_set, this, Ne.symm hie]
          · rw [List.getD_eq_getElem?_getD, List.getD_eq_getElem?_getD,
              List.getElem?_eq_none (by simpa using le_of_not_lt hilen),
              List.getElem?_eq_none (le_of_not_lt hilen)]
            have : ¬ cellOf b0 w b = i + 1 := by omega
            simp [this]
      rw [hcnt i, hset, List.countP_cons]
      simp only [decide_eq_true_eq]
      omega

theorem cumulativeFrom_length (a : ℕ) (l : List ℕ) :
    (cumulativeFrom a l).length = l.length + 1 := by
  induction l generalizing a with
  | nil => rfl
  | cons h t ih => simp [cumulativeFrom, ih]

theorem cumulativeFrom_getD (a : ℕ) (l : List ℕ) :
    ∀ i, i ≤ l.length → (cumulativeFrom a l).getD i 0 = a + (l.take i).sum := by
  induction l generalizing a with
  | nil =>
    intro i hi
    have : i = 0 := by simpa using hi
    subst this
    simp [cumulativeFrom]
  | cons h t ih =>
    intro i hi
    cases i with
    | zero => simp [cumulativeFrom]
    | succ j =>
      rw [cumulativeFrom, List.getD_cons_succ, ih (a + h) j (by simpa using hi)]
      simp [Nat.add_assoc]

theorem cumulativeFrom_head (a : ℕ) (l : List ℕ) : (cumulativeFrom a l).head? = some a := by
  cases l <;> rfl

theorem cumulativeFrom_chain (a : ℕ) (l : List ℕ) :
    (cumulativeFrom a l).Chain' (· ≤ ·) := by
  induction l generalizing a with
  | nil => simp [cumulativeFrom]
  | cons h t ih =>
    rw [cumulativeFrom, List.chain'_cons']
    refine ⟨?_, ih (a + h)⟩
    intro y hy
    rw [cumulativeFrom_head] at hy
    cases hy
    omega

theorem violation_eq_none_iff (l : List ℚ) : violation l = none ↔ l.Chain' (· < ·) := by
  induction l with
  | nil => simp [violation]
  | cons a t ih =>
    cases t with
    | nil => simp [violation]
    | cons b t' =>
      rw [violation]
      by_cases hab : b ≤ a
      · simp only [if_pos hab, List.chain'_cons]
        constructor
        · intro h; cases h
        · rintro ⟨h1, -⟩
          exact absurd h1 (not_lt.mpr hab)
      · rw [if_neg hab, List.chain'_cons]
        simp [Option.map_eq_none', ih, not_le.mp hab]

theorem interiorOf_length (bs : List ℚ) : (interiorOf bs).length = bs.length - 2 := by
  simp only [interiorOf, List.length_take, List.length_drop]
  omega

theorem interiorOf_getElem (bs : List ℚ) (t : ℕ) (ht : t < (interiorOf bs).length)
    (ht' : t + 1 < bs.length) : (interiorOf bs)[t] = bs[t + 1] := by
  simp only [interiorOf] at ht ⊢
  rw [List.getElem_take, List.getElem_drop]
  congr 1
  omega

theorem si_pairwise {bs : List ℚ} (hsi : StrictlyIncreasing bs) : bs.Pairwise (· < ·) :=
  List.chain'_iff_pairwise.mp hsi

theorem si_lt {bs : List ℚ} (hsi : StrictlyIncreasing bs) {i j : ℕ} (hij : i < j)
    (hj : j < bs.length) : bs[i] < bs[j] :=
  List.pairwise_iff_getElem.mp (si_pairwise hsi) i j _ _ hij

theorem si_pairwise_le {bs : List ℚ} (hsi : StrictlyIncreasing bs) : bs.Pairwise (· ≤ ·) :=
  (si_pairwise hsi).imp le_of_lt

theorem interior_pairwise_le {bs : List ℚ} (hsi : StrictlyIncreasing bs) :
    (interiorOf bs).Pairwise (· ≤ ·) :=
  List.Pairwise.sublist ((List.take_sublist _ _).trans (List.drop_sublist _ _))
    (si_pairwise_le hsi)

theorem wOf_pos {bs : List ℚ} (hlen : 2 ≤ bs.length) (hsi : StrictlyIncreasing bs) :
    0 < wOf bs := by
  unfold wOf
  apply div_pos
  · have h0 : 0 < bs.length := by omega
    have hm : bs.length - 1 < bs.length := by omega
    rw [List.getD_eq_getElem?_getD, List.getD_eq_getElem?_getD,
      List.getElem?_eq_getElem hm, List.getElem?_eq_getElem h0]
    have := si_lt hsi (show 0 < bs.length - 1 by omega) hm
    simp only [Option.getD_some]
    linarith
  · exact_mod_cast Nat.pos_of_ne_zero (by omega)

theorem interior_mem_facts {bs : List ℚ} (hlen : 2 ≤ bs.length)
    (hsi : StrictlyIncreasing bs) :
    ∀ b ∈ interiorOf bs, bs.getD 0 0 < b ∧ b < bs.getD (bs.length - 1) 0 := by
  intro b hb
  obtain ⟨t, ht, rfl⟩ := List.mem_iff_getElem.mp hb
  rw [interiorOf_getElem bs t ht (by have := interiorOf_length bs; omega)]
  have htl : t < bs.length - 2 := by rw [interiorOf_length] at ht; exact ht
  have h0 : 0 < bs.length := by omega
  have hm : bs.length - 1 < bs.length := by omega
  rw [List.getD_eq_getElem?_getD, List.getD_eq_getElem?_getD,
    List.getElem?_eq_getElem hm, List.getElem?_eq_getElem h0]
  simp only [Option.getD_some]
  exact ⟨si_lt hsi (show 0 < t + 1 by omega) (by omega),
    si_lt hsi (show t + 1 < bs.length - 1 by omega) hm⟩

theorem interior_cell_le {bs : List ℚ} (hlen : 2 ≤ bs.length)
    (hsi : StrictlyIncreasing bs) :
    ∀ b ∈ interiorOf bs, cellOf (bs.getD 0 0) (wOf bs) b ≤ bs.length - 1 := by
  intro b hb
  obtain ⟨hb0, hbm⟩ := interior_mem_facts hlen hsi b hb
  rw [cellOf_le_iff (wOf_pos hlen hsi) hb0]
  have hm0 : ((bs.length - 1 : ℕ) : ℚ) ≠ 0 := by
    exact_mod_cast Nat.pos_of_ne_zero (show bs.length - 1 ≠ 0 by omega) |>.ne'
  unfold wOf
  rw [mul_comm, div_mul_cancel₀ _ hm0]
  linarith

theorem precalculation_spec {bs : List ℚ} (hlen : 2 ≤ bs.length)
    (hsi : StrictlyIncreasing bs) :
    ∃ hist : List ℕ,
      precalculation bs = some ⟨bs, wOf bs, hist, cumulativeFrom 1 hist⟩ ∧
      hist.length = bs.length - 1 ∧
      ∀ i : ℕ, hist.getD i 0 = cellCount bs i := by
  have hw : 0 < wOf bs := wOf_pos hlen hsi
  obtain ⟨s', hfold, hslen, hcnt⟩ :=
    sweep_spec hw (bs.length - 1) (interiorOf bs) 0 (List.replicate (bs.length - 1) 0)
      (by simp) (interior_pairwise_le hsi)
      (fun b hb => ⟨(interior_mem_facts hlen hsi b hb).1, one_le_cellOf _ _ _,
        interior_cell_le hlen hsi b hb⟩)
  have hrep : ∀ i : ℕ, (List.replicate (bs.length - 1) (0 : ℕ)).getD i 0 = 0 := by
    intro i
    rw [List.getD_eq_getElem?_getD, List.getElem?_replicate]
    by_cases hi : i < bs.length - 1 <;> simp [hi]
  have hinit : (⟨bs.getD 0 0, 1, List.replicate (bs.length - 1) 0⟩ : SweepState) =
      ⟨bs.getD 0 0 + ((0 : ℕ) : ℚ) * wOf bs, 0 + 1, List.replicate (bs.length - 1) 0⟩ := by
    simp
  refine ⟨s'.histogram, ?_, hslen, fun i => by rw [hcnt i, hrep i, cellCount]; simp⟩
  unfold precalculation
  rw [if_neg (by omega)]
  simp only []
  rw [show ((bs.drop 1).take (bs.length - 1 - 1)) = interiorOf bs from rfl]
  rw [show (bs.getD (bs.length - 1) 0 - bs.getD 0 0) / ((bs.length - 1 : ℕ) : ℚ) = wOf bs
    from rfl]
  rw [hinit, hfold]

theorem New_ok_inversion {bs : List ℚ} {bin : Bin} (hnew : New bs = NewResult.ok bin) :
    2 ≤ bs.length ∧ StrictlyIncreasing bs ∧ precalculation bs = some bin := by
  unfold New at hnew
  cases hv : violation bs with
  | some i => rw [hv] at hnew; exact NewResult.noConfusion hnew
  | none =>
    rw [hv] at hnew
    cases hp : precalculation bs with
    | none => rw [hp] at hnew; exact NewResult.noConfusion hnew
    | some b =>
      rw [hp] at hnew
      have hb : b = bin := by injection hnew
      subst hb
      refine ⟨?_, (violation_eq_none_iff bs).mp hv, rfl⟩
      by_contra hlt
      push_neg at hlt
      unfold precalculation at hp
      rw [if_pos hlt] at hp
      exact Option.noConfusion hp

theorem countP_cell_succ (L : List ℚ) (f : ℚ → ℕ) (i : ℕ) :
    L.countP (fun b => decide (f b ≤ i + 1)) =
      L.countP (fun b => decide (f b ≤ i)) + L.countP (fun b => decide (f b = i + 1)) := by
  induction L with
  | nil => simp
  | cons a t ih =>
    simp only [List.countP_cons, ih, decide_eq_true_eq]
    split_ifs <;> omega

theorem sorted_countP_getElem {p : ℚ → Bool}
    (hdc : ∀ a b : ℚ, a ≤ b → p b = true → p a = true) :
    ∀ (L : List ℚ), L.Pairwise (· ≤ ·) →
      ∀ i (hi : i < L.length), (p (L[i]) = true ↔ i < L.countP p) := by
  intro L
  induction L with
  | nil => intro _ i hi; simp at hi
  | cons a t ih =>
    intro hs i hi
    obtain ⟨hall, htail⟩ := List.pairwise_cons.mp hs
    by_cases hpa : p a = true
    · rw [List.countP_cons, if_pos hpa]
      cases i with
      | zero => simpa using hpa
      | succ j =>
        have hj : j < t.length := by simpa using hi
        rw [List.getElem_cons_succ, ih htail j hj]
        omega
    · have hct : t.countP p = 0 := by
        rw [List.countP_eq_zero]
        intro x hx hpx
        exact hpa (hdc a x (hall x hx) hpx)
      rw [List.countP_cons, if_neg hpa, hct]
      cases i with
      | zero => simpa using hpa
      | succ j =>
        have hj : j < t.length := by simpa using hi
        rw [List.getElem_cons_succ]
        simp only [Nat.add_zero]
        constructor
        · intro hpx
          exact absurd hpx (List.countP_eq_zero.mp hct _ (List.getElem_mem hj))
        · omega

theorem countP_eq_of_getElem_iff {p : ℚ → Bool} :
    ∀ (L : List ℚ) (k : ℕ), k ≤ L.length →
      (∀ i (hi : i < L.length), (p (L[i]) = true ↔ i < k)) → L.countP p = k := by
  intro L
  induction L with
  | nil => intro k hk _; simp at hk ⊢; omega
  | cons a t ih =>
    intro k hk hiff
    cases k with
    | zero =>
      rw [List.countP_eq_zero.mpr]
      intro x hx
      obtain ⟨j, hj, rfl⟩ := List.mem_iff_getElem.mp hx
      have h := hiff j hj
      simp only [Nat.not_lt_zero, iff_false] at h
      exact h
    | succ k' =>
      have hpa : p a = true := (hiff 0 (by simp)).mpr (by omega)
      rw [List.countP_cons, if_pos hpa, ih k' (by simpa using hk) ?_]
      intro j hj
      have h := hiff (j + 1) (by simpa using hj)
      rw [List.getElem_cons_succ] at h
      rw [h]
      omega

theorem sortSearchFrom_eq (f : ℕ → Bool) :
    ∀ (fuel i0 k : ℕ), i0 ≤ k → k ≤ i0 + fuel →
      (∀ j, i0 ≤ j → j < k → f j = false) → (k < i0 + fuel → f k = true) →
      sortSearchFrom f i0 fuel = k := by
  intro fuel
  induction fuel with
  | zero =>
    intro i0 k h1 h2 _ _
    simp only [sortSearchFrom]
    omega
  | succ n ih =>
    intro i0 k h1 h2 hlow hup
    simp only [sortSearchFrom]
    by_cases hf : f i0 = true
    · rw [if_pos hf]
      have hnk : ¬ i0 < k := fun h => by
        rw [hlow i0 le_rfl h] at hf
        exact Bool.noConfusion hf
      omega
    · rw [if_neg hf]
      have hki : i0 < k := by
        rcases Nat.lt_or_ge i0 k with h | h
        · exact h
        · have hk0 : k = i0 := by omega
          subst hk0
          exact absurd (hup (by omega)) hf
      exact ih (i0 + 1) k hki (by omega) (fun j hj hjk => hlow j (by omega) hjk)
        (fun hk => hup (by omega))

theorem Search_eq_countLE {bs : List ℚ} {bin : Bin} (hnew : New bs = NewResult.ok bin)
    (v : ℚ) : Search bin v = some (countLE bs v) := by
  obtain ⟨hlen, hsi, hpre⟩ := New_ok_inversion hnew
  obtain ⟨hist, hpre', hhlen, hhist⟩ := precalculation_spec hlen hsi
  rw [hpre] at hpre'
  have hbin : bin = ⟨bs, wOf bs, hist, cumulativeFrom 1 hist⟩ := by injection hpre'
  subst hbin
  have hw : 0 < wOf bs := wOf_pos hlen hsi
  have h0n : 0 < bs.length := by omega
  have hmn : bs.length - 1 < bs.length := by omega
  have hgd0 : bs.getD 0 0 = bs[0] := by
    rw [List.getD_eq_getElem?_getD, List.getElem?_eq_getElem h0n]; rfl
  have hgdm : bs.getD (bs.length - 1) 0 = bs[bs.length - 1] := by
    rw [List.getD_eq_getElem?_getD, List.getElem?_eq_getElem hmn]; rfl
  simp only [cellCount, hgd0] at hhist
  have hilen : (interiorOf bs).length = bs.length - 2 := interiorOf_length bs
  have hK_iff : ∀ j (hj : j < bs.length), (bs[j] ≤ v ↔ j < countLE bs v) := by
    intro j hj
    have hdcv : ∀ a b : ℚ, a ≤ b →
        (fun x => decide (x ≤ v)) b = true → (fun x => decide (x ≤ v)) a = true := by
      intro a b hab hb
      simp only [decide_eq_true_eq] at hb ⊢
      linarith
    have := sorted_countP_getElem hdcv bs (si_pairwise_le hsi) j hj
    simpa [countLE] using this
  simp only [Search, List.getElem?_eq_getElem h0n, List.getElem?_eq_getElem hmn]
  rw [if_neg (not_le.mpr hw)]
  by_cases hv0 : v < bs[0]
  · rw [if_pos hv0]
    have hK0 : countLE bs v = 0 := by
      rw [countLE, List.countP_eq_zero]
      intro x hx
      obtain ⟨j, hj, rfl⟩ := List.mem_iff_getElem.mp hx
      simp only [decide_eq_true_eq, not_le]
      rcases Nat.eq_zero_or_pos j with h | h
      · subst h; exact hv0
      · exact lt_trans hv0 (si_lt hsi h hj)
    rw [hK0]
  · rw [if_neg hv0]
    by_cases hvm : bs[bs.length - 1] ≤ v
    · rw [if_pos hvm]
      have hKn : countLE bs v = bs.length := by
        rw [countLE, List.countP_eq_length]
        intro x hx
        obtain ⟨j, hj, rfl⟩ := List.mem_iff_getElem.mp hx
        simp only [decide_eq_true_eq]
        rcases Nat.lt_or_ge j (bs.length - 1) with h | h
        · exact le_trans (le_of_lt (si_lt hsi h hmn)) hvm
        · have : j = bs.length - 1 := by omega
          subst this
          exact hvm
      rw [hKn]
    · rw [if_neg hvm]
      -- middle case: bs[0] ≤ v < bs[len-1]
      have hb0v : bs[0] ≤ v := not_lt.mp hv0
      have hvbm : v < bs[bs.length - 1] := not_le.mp hvm
      have hq0 : (0 : ℚ) ≤ (v - bs[0]) / wOf bs :=
        div_nonneg (by linarith) (le_of_lt hw)
      have hfl0 : 0 ≤ ⌊(v - bs[0]) / wOf bs⌋ := Int.floor_nonneg.mpr hq0
      have hm0 : ((bs.length - 1 : ℕ) : ℚ) ≠ 0 := by
        have : (0 : ℚ) < ((bs.length - 1 : ℕ) : ℚ) :=
          Nat.cast_pos.mpr (by omega)
        linarith
      have hmw : ((bs.length - 1 : ℕ) : ℚ) * wOf bs =
          bs[bs.length - 1] - bs[0] := by
        rw [wOf, mul_comm, div_mul_cancel₀ _ hm0, hgd0, hgdm]
      have hFlt : ⌊(v - bs[0]) / wOf bs⌋ < ((bs.length - 1 : ℕ) : ℤ) := by
        rw [Int.floor_lt, div_lt_iff₀ hw]
        push_cast
        push_cast at hmw
        linarith
      -- T is the zero-based uniform cell slot used for the histogram lookups
      have hTn : (⌊(v - bs[0]) / wOf bs⌋).toNat < bs.length - 1 := by
        rw [Int.toNat_lt hfl0]
        exact_mod_cast hFlt
      have hTlen : (⌊(v - bs[0]) / wOf bs⌋).toNat < hist.length := by omega
      have hclen : (cumulativeFrom 1 hist).length = bs.length := by
        rw [cumulativeFrom_length, hhlen]; omega
      have hTclen : (⌊(v - bs[0]) / wOf bs⌋).toNat < (cumulativeFrom 1 hist).length := by
        omega
      have hTQ : (((⌊(v - bs[0]) / wOf bs⌋).toNat : ℕ) : ℚ) =
          ((⌊(v - bs[0]) / wOf bs⌋ : ℤ) : ℚ) := by
        exact_mod_cast congrArg (fun z : ℤ => (z : ℚ)) (Int.toNat_of_nonneg hfl0)
      have hlow : bs[0] + (((⌊(v - bs[0]) / wOf bs⌋).toNat : ℕ) : ℚ) * wOf bs ≤ v := by
        rw [hTQ]
        have h1 : ((⌊(v - bs[0]) / wOf bs⌋ : ℤ) : ℚ) ≤ (v - bs[0]) / wOf bs :=
          Int.floor_le _
        have h2 : ((⌊(v - bs[0]) / wOf bs⌋ : ℤ) : ℚ) * wOf bs ≤ v - bs[0] :=
          (le_div_iff₀ hw).mp h1
        linarith
      have hhigh : v < bs[0] +
          ((((⌊(v - bs[0]) / wOf bs⌋).toNat : ℕ) : ℚ) + 1) * wOf bs := by
        rw [hTQ]
        have h1 : (v - bs[0]) / wOf bs < ((⌊(v - bs[0]) / wOf bs⌋ : ℤ) : ℚ) + 1 :=
          Int.lt_floor_add_one _
        rw [div_lt_iff₀ hw] at h1
        linarith
      -- interior element facts
      have hintb0 : ∀ b ∈ interiorOf bs, bs[0] < b := by
        intro b hb
        have := (interior_mem_facts hlen hsi b hb).1
        rwa [hgd0] at this
      have hintbm : ∀ b ∈ interiorOf bs, b < bs[bs.length - 1] := by
        intro b hb
        have := (interior_mem_facts hlen hsi b hb).2
        rwa [hgdm] at this
      -- sum of a histogram prefix counts the interior boundaries in cells ≤ i
      have hsum : ∀ i, i ≤ bs.length - 1 → (hist.take i).sum =
          (interiorOf bs).countP
            (fun b => decide (cellOf (bs[0]) (wOf bs) b ≤ i)) := by
        intro i
        induction i with
        | zero =>
          intro _
          simp only [List.take_zero, List.sum_nil]
          symm
          rw [List.countP_eq_zero]
          intro b _
          have := one_le_cellOf (bs[0]) (wOf bs) b
          simp only [decide_eq_true_eq]
          omega
        | succ j ihj =>
          intro hj1
          rw [List.sum_take_succ hist j (by omega), ihj (by omega), countP_cell_succ]
          congr 1
          have h := hhist j
          rw [List.getD_eq_getElem?_getD, List.getElem?_eq_getElem (show j < hist.length by omega)] at h
          simpa using h
      -- the values read from the histogram and the cumulative histogram
      have hHval : hist[(⌊(v - bs[0]) / wOf bs⌋).toNat] =
          (interiorOf bs).countP
            (fun b => decide (cellOf (bs[0]) (wOf bs) b =
              (⌊(v - bs[0]) / wOf bs⌋).toNat + 1)) := by
        have h := hhist (⌊(v - bs[0]) / wOf bs⌋).toNat
        rw [List.getD_eq_getElem?_getD, List.getElem?_eq_getElem hTlen] at h
        simpa using h
      have hrval : (cumulativeFrom 1 hist)[(⌊(v - bs[0]) / wOf bs⌋).toNat] =
          1 + (interiorOf bs).countP
            (fun b => decide (cellOf (bs[0]) (wOf bs) b ≤
              (⌊(v - bs[0]) / wOf bs⌋).toNat)) := by
        have h := cumulativeFrom_getD 1 hist (⌊(v - bs[0]) / wOf bs⌋).toNat (by omega)
        rw [List.getD_eq_getElem?_getD, List.getElem?_eq_getElem hTclen] at h
        rw [hsum _ (by omega)] at h
        simpa using h
      -- iff characterizations on the interior
      have hdc1 : ∀ c : ℕ, ∀ a b : ℚ, a ≤ b →
          (fun x => decide (cellOf (bs[0]) (wOf bs) x ≤ c)) b = true →
          (fun x => decide (cellOf (bs[0]) (wOf bs) x ≤ c)) a = true := by
        intro c a b hab hb
        simp only [decide_eq_true_eq] at hb ⊢
        exact le_trans (cellOf_mono hw hab) hb
      have hq1iff := sorted_countP_getElem (hdc1 (⌊(v - bs[0]) / wOf bs⌋).toNat)
        (interiorOf bs) (interior_pairwise_le hsi)
      have hq2iff := sorted_countP_getElem (hdc1 ((⌊(v - bs[0]) / wOf bs⌋).toNat + 1))
        (interiorOf bs) (interior_pairwise_le hsi)
      -- countP bounds
      have hR1le : (interiorOf bs).countP
          (fun b => decide (cellOf (bs[0]) (wOf bs) b ≤
            (⌊(v - bs[0]) / wOf bs⌋).toNat)) ≤ bs.length - 2 := by
        have := List.countP_le_length
          (fun b => decide (cellOf (bs[0]) (wOf bs) b ≤
            (⌊(v - bs[0]) / wOf bs⌋).toNat)) (l := interiorOf bs)
        omega
      have hR2eq : (interiorOf bs).countP
          (fun b => decide (cellOf (bs[0]) (wOf bs) b ≤
            (⌊(v - bs[0]) / wOf bs⌋).toNat + 1)) =
          (interiorOf bs).countP
            (fun b => decide (cellOf (bs[0]) (wOf bs) b ≤
              (⌊(v - bs[0]) / wOf bs⌋).toNat)) +
          (interiorOf bs).countP
            (fun b => decide (cellOf (bs[0]) (wOf bs) b =
              (⌊(v - bs[0]) / wOf bs⌋).toNat + 1)) :=
        countP_cell_succ (interiorOf bs) (cellOf (bs[0]) (wOf bs)) _
      have hR2le : (interiorOf bs).countP
          (fun b => decide (cellOf (bs[0]) (wOf bs) b ≤
            (⌊(v - bs[0]) / wOf bs⌋).toNat + 1)) ≤ bs.length - 2 := by
        have := List.countP_le_length
          (fun b => decide (cellOf (bs[0]) (wOf bs) b ≤
            (⌊(v - bs[0]) / wOf bs⌋).toNat + 1)) (l := interiorOf bs)
        omega
      set T := (⌊(v - bs[0]) / wOf bs⌋).toNat with hTdef
      set K := countLE bs v with hKdef
      set R1 := (interiorOf bs).countP
        (fun b => decide (cellOf bs[0] (wOf bs) b ≤ T)) with hR1def
      set H := (interiorOf bs).countP
        (fun b => decide (cellOf bs[0] (wOf bs) b = T + 1)) with hHdef
      set R2 := (interiorOf bs).countP
        (fun b => decide (cellOf bs[0] (wOf bs) b ≤ T + 1)) with hR2def
      have hKlen : K ≤ bs.length := by
        rw [hKdef, countLE]
        exact List.countP_le_length _
      -- interior elements in cells up to T are ≤ v, those beyond cell T+1 are > v
      have hcell_le_v : ∀ b ∈ interiorOf bs, cellOf bs[0] (wOf bs) b ≤ T → b ≤ v := by
        intro b hb hc
        have hub := (cellOf_le_iff hw (hintb0 b hb) T).mp hc
        exact le_trans hub hlow
      have hcell_gt_v : ∀ b ∈ interiorOf bs,
          ¬(cellOf bs[0] (wOf bs) b ≤ T + 1) → v < b := by
        intro b hb hc
        rw [cellOf_le_iff hw (hintb0 b hb)] at hc
        push_neg at hc
        push_cast at hc
        linarith
      -- lower bound: the r value is at most the true bin index
      have hrK : 1 + R1 ≤ K := by
        rcases Nat.eq_zero_or_pos R1 with h0 | hpos
        · have h1 := (hK_iff 0 h0n).mp hb0v
          omega
        · obtain ⟨t, ht⟩ : ∃ t, R1 = t + 1 := ⟨R1 - 1, by omega⟩
          have htlen : t < (interiorOf bs).length := by omega
          have hq1 : (fun b => decide (cellOf bs[0] (wOf bs) b ≤ T))
              ((interiorOf bs)[t]) = true := (hq1iff t htlen).mpr (by omega)
          have hle : (interiorOf bs)[t] ≤ v := by
            apply hcell_le_v _ (List.getElem_mem htlen)
            simpa using hq1
          rw [interiorOf_getElem bs t htlen (by omega)] at hle
          have := (hK_iff (t + 1) (by omega)).mp hle
          omega
      -- upper bound: the true bin index is at most r plus the cell population
      have hKR2 : K ≤ 1 + R2 := by
        rcases Nat.lt_or_ge (1 + R2) (bs.length - 1) with hcase | hcase
        · have hR2len : R2 < (interiorOf bs).length := by omega
          have hnq2 : ¬((fun b => decide (cellOf bs[0] (wOf bs) b ≤ T + 1))
              ((interiorOf bs)[R2]) = true) := by
            rw [hq2iff R2 hR2len]
            omega
          have hvlt : v < (interiorOf bs)[R2] := by
            apply hcell_gt_v _ (List.getElem_mem hR2len)
            simpa using hnq2
          rw [interiorOf_getElem bs R2 hR2len (by omega)] at hvlt
          have hnot : ¬(R2 + 1 < K) := fun hlt =>
            absurd ((hK_iff (R2 + 1) (by omega)).mpr hlt) (not_le.mpr hvlt)
          omega
        · have hnot : ¬(bs.length - 1 < K) := fun hlt =>
            absurd ((hK_iff (bs.length - 1) hmn).mpr hlt) (not_le.mpr hvbm)
          omega
      -- reduce the remaining match on the histogram entry
      simp only [Nat.add_sub_cancel]
      rw [List.getElem?_eq_getElem hTlen, List.getElem?_eq_getElem hTclen, hrval]
      rcases hH : hist[T] with _ | _ | _ | h3
      · -- h = 0
        have hH0 : H = 0 := (hHval.symm.trans hH)
        exact congrArg some (by omega)
      · -- h = 1
        have hH1 : H = 1 := (hHval.symm.trans hH)
        have hblen : 1 + R1 < bs.length := by omega
        simp only []
        rw [List.getElem?_eq_getElem hblen]
        simp only []
        by_cases hbr : bs[1 + R1] ≤ v
        · rw [if_pos hbr]
          have := (hK_iff (1 + R1) hblen).mp hbr
          exact congrArg some (by omega)
        · rw [if_neg hbr]
          have hnot : ¬(1 + R1 < K) := fun hlt => hbr ((hK_iff (1 + R1) hblen).mpr hlt)
          exact congrArg some (by omega)
      · -- h = 2
        have hH2 : H = 2 := (hHval.symm.trans hH)
        have hblen1 : 1 + R1 + 1 < bs.length := by omega
        have hblen : 1 + R1 < bs.length := by omega
        simp only []
        rw [List.getElem?_eq_getElem hblen1, List.getElem?_eq_getElem hblen]
        simp only []
        by_cases hbr1 : bs[1 + R1 + 1] ≤ v
        · rw [if_pos hbr1]
          have := (hK_iff (1 + R1 + 1) hblen1).mp hbr1
          exact congrArg some (by omega)
        · rw [if_neg hbr1]
          have hnot1 : ¬(1 + R1 + 1 < K) := fun hlt =>
            hbr1 ((hK_iff (1 + R1 + 1) hblen1).mpr hlt)
          by_cases hbr : v < bs[1 + R1]
          · rw [if_pos hbr]
            have hnot : ¬(1 + R1 < K) := fun hlt =>
              absurd ((hK_iff (1 + R1) hblen).mpr hlt) (not_le.mpr hbr)
            exact congrArg some (by omega)
          · rw [if_neg hbr]
            have := (hK_iff (1 + R1) hblen).mp (not_lt.mp hbr)
            exact congrArg some (by omega)
      · -- h ≥ 3: the binary-search fallback
        have hH3 : H = h3 + 3 := (hHval.symm.trans hH)
        have hguard : 1 + R1 + (h3 + 3) ≤ bs.length := by omega
        simp only []
        rw [if_pos hguard]
        have hss : sortSearch (h3 + 3)
            (fun i => decide (v < bs.getD (1 + R1 + i) 0)) = K - (1 + R1) := by
          rw [sortSearch]
          apply sortSearchFrom_eq _ (h3 + 3) 0 (K - (1 + R1)) (by omega) (by omega)
          · intro j _ hj
            have hjlen : 1 + R1 + j < bs.length := by omega
            show decide (v < bs.getD (1 + R1 + j) 0) = false
            rw [List.getD_eq_getElem?_getD, List.getElem?_eq_getElem hjlen]
            have hle : bs[1 + R1 + j] ≤ v := (hK_iff (1 + R1 + j) hjlen).mpr (by omega)
            simp only [Option.getD_some]
            exact decide_eq_false (not_lt.mpr hle)
          · intro hlt
            have hKlen2 : K < bs.length := by omega
            show decide (v < bs.getD (1 + R1 + (K - (1 + R1))) 0) = true
            rw [List.getD_eq_getElem?_getD,
              show 1 + R1 + (K - (1 + R1)) = K from by omega,
              List.getElem?_eq_getElem hKlen2]
            have hnot : ¬(bs[K] ≤ v) := fun hle =>
              absurd ((hK_iff K hKlen2).mp hle) (by omega)
            simp only [Option.getD_some]
            exact decide_eq_true (not_le.mp hnot)
        rw [hss]
        exact congrArg some (by omega)

theorem countLE_getElem_iff {bs : List ℚ} (hsi : StrictlyIncreasing bs) (v : ℚ) (j : ℕ)
    (hj : j < bs.length) : (bs[j] ≤ v ↔ j < countLE bs v) := by
  have hdcv : ∀ a b : ℚ, a ≤ b →
      (fun x => decide (x ≤ v)) b = true → (fun x => decide (x ≤ v)) a = true := by
    intro a b hab hb
    simp only [decide_eq_true_eq] at hb ⊢
    linarith
  have := sorted_countP_getElem hdcv bs (si_pairwise_le hsi) j hj
  simpa [countLE] using this

theorem countLE_getElem {bs : List ℚ} (hsi : StrictlyIncreasing bs) (i : ℕ)
    (hi : i < bs.length) : countLE bs bs[i] = i + 1 := by
  rw [countLE]
  apply countP_eq_of_getElem_iff bs (i + 1) (by omega)
  intro j hj
  simp only [decide_eq_true_eq]
  constructor
  · intro hle
    by_contra hgt
    push_neg at hgt
    have := si_lt hsi (show i < j by omega) hj
    linarith
  · intro hlt
    rcases Nat.lt_or_ge j i with h | h
    · exact le_of_lt (si_lt hsi h hi)
    · have hji : j = i := by omega
      subst hji
      exact le_refl _

theorem hist_prefix_sum {bs : List ℚ} (hlen : 2 ≤ bs.length) (hsi : StrictlyIncreasing bs)
    {hist : List ℕ} (hhlen : hist.length = bs.length - 1)
    (hhist : ∀ i : ℕ, hist.getD i 0 = cellCount bs i) :
    ∀ i, i ≤ bs.length - 1 → (hist.take i).sum =
      (interiorOf bs).countP
        (fun b => decide (cellOf (bs.getD 0 0) (wOf bs) b ≤ i)) := by
  intro i
  induction i with
  | zero =>
    intro _
    simp only [List.take_zero, List.sum_nil]
    symm
    rw [List.countP_eq_zero]
    intro b _
    have := one_le_cellOf (bs.getD 0 0) (wOf bs) b
    simp only [decide_eq_true_eq]
    omega
  | succ j ihj =>
    intro hj1
    rw [List.sum_take_succ hist j (by omega), ihj (by omega), countP_cell_succ]
    congr 1
    have h := hhist j
    rw [cellCount, List.getD_eq_getElem?_getD,
      List.getElem?_eq_getElem (show j < hist.length by omega)] at h
    simpa using h

theorem hist_total_sum {bs : List ℚ} (hlen : 2 ≤ bs.length) (hsi : StrictlyIncreasing bs)
    {hist : List ℕ} (hhlen : hist.length = bs.length - 1)
    (hhist : ∀ i : ℕ, hist.getD i 0 = cellCount bs i) :
    hist.sum = bs.length - 2 := by
  have h := hist_prefix_sum hlen hsi hhlen hhist (bs.length - 1) le_rfl
  rw [List.take_of_length_le (by omega)] at h
  rw [h]
  have hall : (interiorOf bs).countP
      (fun b => decide (cellOf (bs.getD 0 0) (wOf bs) b ≤ bs.length - 1)) =
      (interiorOf bs).length := by
    rw [List.countP_eq_length]
    intro b hb
    simpa using interior_cell_le hlen hsi b hb
  rw [hall, interiorOf_length]

/-- Modelled from the spec's data-model wording, for comparison with the code:
the number of interior boundaries falling in uniform cell `i`, with the `m`
equal-width cells partitioning `[boundaries[0], boundaries[m])` read as the
half-open intervals `[b0 + i·w, b0 + (i+1)·w)`. -/
def specHalfOpenCellCount (bs : List ℚ) (i : ℕ) : ℕ :=
  (interiorOf bs).countP (fun b => decide (bs.getD 0 0 + (i : ℚ) * wOf bs ≤ b ∧
    b < bs.getD 0 0 + ((i : ℚ) + 1) * wOf bs))

/-- C1 counterexample: for the reference boundaries (m = 7), `Search 99`
returns 8, which lies outside the claimed result range `[0, m]`; so
"k = m ⇔ value ≥ boundaries[m]" also fails (the code returns m+1 there). -/
theorem search_range_counterexample :
    New exBoundaries = NewResult.ok exBin ∧ Search exBin 99 = some 8 ∧ ¬(8 ≤ 7) :=
  ⟨by decide, by decide, by decide⟩

/-- C1 (amended): for every Bin built by `New` from m+1 strictly increasing
boundaries and every value v, `Search v = some k` with `k ≤ m+1`, where
`k = 0` iff `v < boundaries[0]`, `k = m+1` iff `v ≥ boundaries[m]`, and for
`1 ≤ j ≤ m`, `k = j` iff `boundaries[j-1] ≤ v < boundaries[j]`
(left-inclusive, right-exclusive). -/
theorem search_characterization {bs : List ℚ} {bin : Bin}
    (hnew : New bs = NewResult.ok bin) (v : ℚ) :
    ∃ k : ℕ, Search bin v = some k ∧ k ≤ bs.length ∧
      (k = 0 ↔ v < bs.getD 0 0) ∧
      (k = bs.length ↔ bs.getD (bs.length - 1) 0 ≤ v) ∧
      (∀ j : ℕ, 1 ≤ j → j + 1 ≤ bs.length →
        (k = j ↔ (bs.getD (j - 1) 0 ≤ v ∧ v < bs.getD j 0))) := by
  obtain ⟨hlen, hsi, -⟩ := New_ok_inversion hnew
  have h0n : 0 < bs.length := by omega
  have hmn : bs.length - 1 < bs.length := by omega
  have hgd : ∀ (j : ℕ) (hj : j < bs.length), bs.getD j 0 = bs[j] := by
    intro j hj
    rw [List.getD_eq_getElem?_getD, List.getElem?_eq_getElem hj]
    rfl
  have hKlen : countLE bs v ≤ bs.length := List.countP_le_length _
  refine ⟨countLE bs v, Search_eq_countLE hnew v, hKlen, ?_, ?_, ?_⟩
  · rw [hgd 0 h0n]
    constructor
    · intro hk
      by_contra hge
      push_neg at hge
      have := (countLE_getElem_iff hsi v 0 h0n).mp hge
      omega
    · intro hlt
      by_contra hne
      have hpos : 0 < countLE bs v := by omega
      have := (countLE_getElem_iff hsi v 0 h0n).mpr hpos
      linarith
  · rw [hgd (bs.length - 1) hmn]
    constructor
    · intro hk
      exact (countLE_getElem_iff hsi v (bs.length - 1) hmn).mpr (by omega)
    · intro hle
      have := (countLE_getElem_iff hsi v (bs.length - 1) hmn).mp hle
      omega
  · intro j hj1 hjlen
    have hjn : j < bs.length := by omega
    have hj1n : j - 1 < bs.length := by omega
    rw [hgd (j - 1) hj1n, hgd j hjn]
    constructor
    · intro hk
      constructor
      · exact (countLE_getElem_iff hsi v (j - 1) hj1n).mpr (by omega)
      · by_contra hge
        push_neg at hge
        have := (countLE_getElem_iff hsi v j hjn).mp hge
        omega
    · rintro ⟨hlo, hhi⟩
      have h1 := (countLE_getElem_iff hsi v (j - 1) hj1n).mp hlo
      have h2 : ¬(j < countLE bs v) := fun hlt =>
        absurd ((countLE_getElem_iff hsi v j hjn).mpr hlt) (not_le.mpr hhi)
      omega

/-- Witness for the amended C1 at the reference example. -/
theorem search_characterization_witness :
    ∃ k : ℕ, Search exBin (21/2) = some k ∧ k ≤ exBoundaries.length ∧
      (k = 0 ↔ (21/2 : ℚ) < exBoundaries.getD 0 0) ∧
      (k = exBoundaries.length ↔ exBoundaries.getD (exBoundaries.length - 1) 0 ≤ 21/2) ∧
      (∀ j : ℕ, 1 ≤ j → j + 1 ≤ exBoundaries.length →
        (k = j ↔ (exBoundaries.getD (j - 1) 0 ≤ 21/2 ∧ (21/2 : ℚ) < exBoundaries.getD j 0))) :=
  search_characterization (by decide) (21/2)

/-- C2: for every Bin built by `New` and every boundary index `0 ≤ i ≤ m`,
`Search boundaries[i] = i + 1`, which is the count of boundaries that are
`≤` the queried value. -/
theorem search_at_boundary_index {bs : List ℚ} {bin : Bin}
    (hnew : New bs = NewResult.ok bin) (i : ℕ) (hi : i < bs.length) :
    Search bin (bs.getD i 0) = some (i + 1) ∧ countLE bs (bs.getD i 0) = i + 1 := by
  obtain ⟨hlen, hsi, -⟩ := New_ok_inversion hnew
  have hgd : bs.getD i 0 = bs[i] := by
    rw [List.getD_eq_getElem?_getD, List.getElem?_eq_getElem hi]
    rfl
  rw [hgd, Search_eq_countLE hnew, countLE_getElem hsi i hi]
  exact ⟨rfl, rfl⟩

/-- Witness for C2 at the reference example: `search(boundaries[3]) = 4`. -/
theorem search_at_boundary_index_witness :
    Search exBin (exBoundaries.getD 3 0) = some 4 ∧
    countLE exBoundaries (exBoundaries.getD 3 0) = 4 :=
  search_at_boundary_index (by decide) 3 (by decide)

/-- C3: for every Bin built by `New` from m+1 strictly increasing boundaries,
`uniformBinWidth > 0`, the cumulative histogram has length m+1, starts at 1,
is non-decreasing, and its last entry exceeds its first by m-1. -/
theorem precalculation_invariants {bs : List ℚ} {bin : Bin}
    (hnew : New bs = NewResult.ok bin) :
    0 < bin.uniformBinWidth ∧
    bin.cumulativeHistogram.length = bs.length ∧
    bin.cumulativeHistogram.getD 0 0 = 1 ∧
    bin.cumulativeHistogram.Chain' (· ≤ ·) ∧
    bin.cumulativeHistogram.getD (bs.length - 1) 0 =
      bin.cumulativeHistogram.getD 0 0 + (bs.length - 2) := by
  obtain ⟨hlen, hsi, hpre⟩ := New_ok_inversion hnew
  obtain ⟨hist, hpre', hhlen, hhist⟩ := precalculation_spec hlen hsi
  rw [hpre] at hpre'
  have hbin : bin = ⟨bs, wOf bs, hist, cumulativeFrom 1 hist⟩ := by injection hpre'
  subst hbin
  refine ⟨wOf_pos hlen hsi, ?_, ?_, cumulativeFrom_chain 1 hist, ?_⟩
  · show (cumulativeFrom 1 hist).length = bs.length
    rw [cumulativeFrom_length, hhlen]
    omega
  · show (cumulativeFrom 1 hist).getD 0 0 = 1
    rw [cumulativeFrom_getD 1 hist 0 (by omega)]
    simp
  · show (cumulativeFrom 1 hist).getD (bs.length - 1) 0 =
      (cumulativeFrom 1 hist).getD 0 0 + (bs.length - 2)
    rw [cumulativeFrom_getD 1 hist (bs.length - 1) (by omega),
      cumulativeFrom_getD 1 hist 0 (by omega),
      List.take_of_length_le (by omega), List.take_zero, List.sum_nil,
      hist_total_sum hlen hsi hhlen hhist]
    omega

/-- Witness for C3 at the reference example. -/
theorem precalculation_invariants_witness :
    0 < exBin.uniformBinWidth ∧
    exBin.cumulativeHistogram.length = exBoundaries.length ∧
    exBin.cumulativeHistogram.getD 0 0 = 1 ∧
    exBin.cumulativeHistogram.Chain' (· ≤ ·) ∧
    exBin.cumulativeHistogram.getD (exBoundaries.length - 1) 0 =
      exBin.cumulativeHistogram.getD 0 0 + (exBoundaries.length - 2) :=
  precalculation_invariants (by decide)

/-- C4 counterexample: for boundaries `[0, 1, 2]` (w = 1) the code computes
histogram `[1, 0]`, but under the spec's half-open reading of the uniform
cells the interior boundary 1 lies in cell 1 (interval `[1, 2)`), not cell 0,
so the half-open cell count of cell 0 is 0 ≠ 1. -/
theorem histogram_half_open_counterexample :
    New [(0 : ℚ), 1, 2] = NewResult.ok ⟨[0, 1, 2], 1, [1, 0], [1, 2, 2]⟩ ∧
    specHalfOpenCellCount [(0 : ℚ), 1, 2] 0 = 0 ∧ ¬((1 : ℕ) = 0) :=
  ⟨by decide, by decide, by decide⟩

/-- C4 (amended): `histogram[i]` counts the interior boundaries that the sweep
assigns to uniform cell `i`, whose intervals are right-closed: cell 0 is
`[b0, b0 + w]` and cell `i ≥ 1` is `(b0 + i·w, b0 + (i+1)·w]`; a boundary
lying exactly on a cell edge is counted into the cell on its left. -/
theorem histogram_cell_count {bs : List ℚ} {bin : Bin}
    (hnew : New bs = NewResult.ok bin) (i : ℕ) :
    bin.histogram.getD i 0 =
      (interiorOf bs).countP
        (fun b => decide ((i = 0 ∨ bs.getD 0 0 + (i : ℚ) * wOf bs < b) ∧
          b ≤ bs.getD 0 0 + ((i : ℚ) + 1) * wOf bs)) := by
  obtain ⟨hlen, hsi, hpre⟩ := New_ok_inversion hnew
  obtain ⟨hist, hpre', hhlen, hhist⟩ := precalculation_spec hlen hsi
  rw [hpre] at hpre'
  have hbin : bin = ⟨bs, wOf bs, hist, cumulativeFrom 1 hist⟩ := by injection hpre'
  subst hbin
  have hw : 0 < wOf bs := wOf_pos hlen hsi
  show hist.getD i 0 = _
  rw [hhist i, cellCount]
  apply List.countP_congr
  intro b hb
  have hb0 : bs.getD 0 0 < b := (interior_mem_facts hlen hsi b hb).1
  simp only [decide_eq_true_eq]
  have hiff1 := cellOf_le_iff hw hb0 (i + 1)
  have hiff2 := cellOf_le_iff hw hb0 i
  have h1 : (cellOf (bs.getD 0 0) (wOf bs) b = i + 1) ↔
      (cellOf (bs.getD 0 0) (wOf bs) b ≤ i + 1 ∧
        ¬(cellOf (bs.getD 0 0) (wOf bs) b ≤ i)) := by
    have := one_le_cellOf (bs.getD 0 0) (wOf bs) b
    omega
  rw [h1, hiff1, hiff2]
  push_cast
  constructor
  · rintro ⟨hu, hl⟩
    push_neg at hl
    exact ⟨Or.inr hl, hu⟩
  · rintro ⟨hl, hu⟩
    refine ⟨hu, ?_⟩
    push_neg
    rcases hl with h0 | hlt
    · subst h0
      push_cast
      linarith
    · exact hlt

/-- Witness for the amended C4 at the reference example, cell 4
(`histogram[4] = 3`: boundaries 19, 20, 21 lie in `(18, 22]`). -/
theorem histogram_cell_count_witness :
    exBin.histogram.getD 4 0 =
      (interiorOf exBoundaries).countP
        (fun b => decide (((4 : ℕ) = 0 ∨
          exBoundaries.getD 0 0 + ((4 : ℕ) : ℚ) * wOf exBoundaries < b) ∧
          b ≤ exBoundaries.getD 0 0 + (((4 : ℕ) : ℚ) + 1) * wOf exBoundaries)) :=
  histogram_cell_count (by decide) 4

/-- C5: for at least two boundaries, `New` fails with a validation error
exactly when the sequence is not strictly increasing, and on success it
returns the fully precalculated Bin. -/
theorem new_error_iff_not_increasing (bs : List ℚ) (hlen : 2 ≤ bs.length) :
    ((∃ v1 v2 i1 i2, New bs = NewResult.validationError v1 v2 i1 i2) ↔
      ¬ StrictlyIncreasing bs) ∧
    (StrictlyIncreasing bs →
      ∃ bin, New bs = NewResult.ok bin ∧ precalculation bs = some bin) := by
  constructor
  · constructor
    · rintro ⟨v1, v2, i1, i2, herr⟩ hsi
      have hv : violation bs = none := (violation_eq_none_iff bs).mpr hsi
      unfold New at herr
      rw [hv] at herr
      cases hp : precalculation bs with
      | none => rw [hp] at herr; exact NewResult.noConfusion herr
      | some b => rw [hp] at herr; exact NewResult.noConfusion herr
    · intro hnsi
      cases hv : violation bs with
      | none => exact absurd ((violation_eq_none_iff bs).mp hv) hnsi
      | some i =>
        have heq : New bs = NewResult.validationError (bs.getD i 0) (bs.getD (i + 1) 0)
            ((i : ℤ) - 1) (i : ℤ) := by
          unfold New
          rw [hv]
        exact ⟨_, _, _, _, heq⟩
  · intro hsi
    obtain ⟨hist, hpre, -, -⟩ := precalculation_spec hlen hsi
    refine ⟨_, ?_, hpre⟩
    unfold New
    rw [(violation_eq_none_iff bs).mpr hsi, hpre]

/-- Witness for C5 at the spec's rejection example `[2, 11, 5, 20]`. -/
theorem new_error_iff_not_increasing_witness :
    ((∃ v1 v2 i1 i2, New [(2 : ℚ), 11, 5, 20] = NewResult.validationError v1 v2 i1 i2) ↔
      ¬ StrictlyIncreasing [(2 : ℚ), 11, 5, 20]) ∧
    (StrictlyIncreasing [(2 : ℚ), 11, 5, 20] →
      ∃ bin, New [(2 : ℚ), 11, 5, 20] = NewResult.ok bin ∧
        precalculation [(2 : ℚ), 11, 5, 20] = some bin) :=
  new_error_iff_not_increasing [(2 : ℚ), 11, 5, 20] (by decide)

/-- C6: the paper's reference case: construction succeeds with
`uniformBinWidth = 4`, the expected histogram and cumulative histogram, and
the eleven listed queries return the listed bin indices (10.5 = 21/2,
13.2 = 66/5, 18.9 = 189/10, 19.9 = 199/10, 29.9 = 299/10). -/
theorem reference_example :
    New exBoundaries = NewResult.ok exBin ∧
    exBin.uniformBinWidth = 4 ∧
    exBin.histogram = [0, 0, 1, 0, 3, 0, 2] ∧
    exBin.cumulativeHistogram = [1, 1, 1, 2, 2, 5, 5, 7] ∧
    Search exBin (-4) = some 0 ∧ Search exBin 0 = some 0 ∧
    Search exBin 2 = some 1 ∧ Search exBin (21/2) = some 1 ∧
    Search exBin (66/5) = some 2 ∧ Search exBin (189/10) = some 2 ∧
    Search exBin (199/10) = some 3 ∧ Search exBin 20 = some 4 ∧
    Search exBin (299/10) = some 7 ∧ Search exBin 30 = some 8 ∧
    Search exBin 99 = some 8 := by
  decide

/-- C7: on every Bin built by `New`, `Search` is total: it never reaches the
unprepared-instance panic and every list access is in bounds, so it returns
`some` bin index for every (finite) value. -/
theorem search_total {bs : List ℚ} {bin : Bin} (hnew : New bs = NewResult.ok bin)
    (v : ℚ) : ∃ k : ℕ, Search bin v = some k :=
  ⟨countLE bs v, Search_eq_countLE hnew v⟩

/-- Witness for C7 at the reference example. -/
theorem search_total_witness : ∃ k : ℕ, Search exBin (66/5) = some k :=
  @search_total exBoundaries exBin (by decide) (66/5)

/-- C8: on the non-monotonic input `[2, 11, 5, 20]` the first violating pair
is `boundaries[1] = 11 ≥ 5 = boundaries[2]`; the error carries the two
violating values 11 and 5 but reports the indices 0 and 1, one less than the
indices 1 and 2 of the values it shows. -/
theorem new_validation_error_indices :
    New [(2 : ℚ), 11, 5, 20] = NewResult.validationError 11 5 0 1 := by
  decide

/-- C9: `Boundary i` returns `boundaries[i]` for `0 ≤ i ≤ m` and fails with
the out-of-range error (Go's index-out-of-range panic) exactly when `i` lies
outside `[0, m]`. -/
theorem boundary_index_range (bin : Bin) (m : ℕ)
    (hm : bin.boundaries.length = m + 1) (i : ℤ) :
    (0 ≤ i ∧ i ≤ (m : ℤ) → Boundary bin i = some (bin.boundaries.getD i.toNat 0)) ∧
    (Boundary bin i = none ↔ ¬(0 ≤ i ∧ i ≤ (m : ℤ))) := by
  have hlen : (bin.boundaries.length : ℤ) = (m : ℤ) + 1 := by exact_mod_cast hm
  constructor
  · rintro ⟨h0, hle⟩
    rw [Boundary, if_pos ⟨h0, by omega⟩]
  · by_cases hc : 0 ≤ i ∧ i < (bin.boundaries.length : ℤ)
    · rw [Boundary, if_pos hc]
      constructor
      · intro h
        exact Option.noConfusion h
      · intro h
        exact absurd ⟨hc.1, by omega⟩ h
    · rw [Boundary, if_neg hc]
      constructor
      · intro _ hcontra
        exact hc ⟨hcontra.1, by omega⟩
      · intro _
        rfl

/-- Witness for C9 at the reference example (m = 7, i = 3). -/
theorem boundary_index_range_witness :
    (0 ≤ (3 : ℤ) ∧ (3 : ℤ) ≤ ((7 : ℕ) : ℤ) →
      Boundary exBin 3 = some (exBin.boundaries.getD (3 : ℤ).toNat 0)) ∧
    (Boundary exBin 3 = none ↔ ¬(0 ≤ (3 : ℤ) ∧ (3 : ℤ) ≤ ((7 : ℕ) : ℤ))) :=
  boundary_index_range exBin 7 (by decide) 3

/-- C10 counterexample: on the single-element sequence `[0]` the constructor
does not return success; it panics (the Go slice expression `boundaries[1:0]`
is out of range), so no degenerate instance is produced. -/
theorem new_singleton_counterexample : New [(0 : ℚ)] = NewResult.panics := by
  decide

/-- C10 (amended): `New` indeed never rejects a single-element sequence with a
ValidationError (monotonicity is vacuously satisfied), but it does not return
success either: `precalculation` panics on the slice `boundaries[1:m]` with
`m = 0`, so no degenerate instance with an empty histogram is ever produced. -/
theorem new_singleton_panics (q : ℚ) : New [q] = NewResult.panics := rfl

end Fastbinning
